import Mathlib

/-!
Shallow embedding of `Code/neuroconnect/simple_graph.py`.

A graph is a list of adjacency lists: vertex `i`'s out-edges are the list at
index `i`.  Sparse matrices are modelled by their shape together with the list
of structurally nonzero `(row, col)` positions, which is exactly the interface
the Python code consumes (`shape`, `scipy.sparse.find`, indexed assignment of
ones).  Python's `raise ValueError` is modelled with `Except String`; the
`IndexError` that list indexing can raise is modelled explicitly where a claim
depends on it.
-/

namespace SimpleGraph0

/-- A sparse boolean matrix: its shape and the enumeration of its structurally
nonzero cells, mirroring what `scipy.sparse.find` exposes. -/
structure SpMat where
  rows : Nat
  cols : Nat
  data : List (Nat × Nat)
  deriving Repr, DecidableEq

/-- Well-formedness of a sparse matrix: every recorded nonzero position lies
inside the shape. -/
def SpMat.wf (m : SpMat) : Prop :=
  ∀ p ∈ m.data, p.1 < m.rows ∧ p.2 < m.cols

instance (m : SpMat) : Decidable m.wf := by
  unfold SpMat.wf; infer_instance

/-- `graph[i].append(x)`: append `x` to the adjacency list at index `i`
(a no-op when `i` is out of range; callers establish range separately). -/
def appendAt (l : List (List Nat)) (i : Nat) (x : Nat) : List (List Nat) :=
  l.set i ((l.getD i []) ++ [x])

/-- Run a sequence of `graph[i].append(x)` operations, one per pair. -/
def appendAll (ps : List (Nat × Nat)) (acc : List (List Nat)) : List (List Nat) :=
  match ps with
  | [] => acc
  | p :: rest => appendAll rest (appendAt acc p.1 p.2)

/-- `reverse`'s inner loop: `for child in children: reverse_graph[child].append(node)`. -/
def addEdges (acc : List (List Nat)) (node : Nat) (children : List Nat) : List (List Nat) :=
  match children with
  | [] => acc
  | c :: cs => addEdges (appendAt acc c node) node cs

/-- `reverse`'s outer loop: `for node, children in enumerate(graph)`. -/
def reverseAux (acc : List (List Nat)) (node : Nat) (rest : List (List Nat)) :
    List (List Nat) :=
  match rest with
  | [] => acc
  | children :: more => reverseAux (addEdges acc node children) (node + 1) more

/-- `reverse(graph)`: reverse the direction of edges in a graph. -/
def reverse (graph : List (List Nat)) : List (List Nat) :=
  reverseAux (List.replicate graph.length []) 0 graph

/-- `from_matrix(AB, BA, AA, BB, to_use)`: build a graph from the four block
matrices.  The selector-guarded dimension checks and the quadrant scatters
follow the source order; `ValueError` becomes `Except.error`. -/
def from_matrix (AB BA AA BB : SpMat)
    (to_use : List Bool := [true, true, true, true]) :
    Except String (List (List Nat)) :=
  let num_a := AB.rows
  let num_b := AB.cols
  let graph : List (List Nat) := List.replicate (num_a + num_b) []
  let graph := if to_use.getD 0 false then
      appendAll (AB.data.map (fun p => (p.1, num_a + p.2))) graph
    else graph
  if to_use.getD 1 false ∧ (num_a ≠ BA.cols ∨ BA.rows ≠ num_b) then
    Except.error "Rows and Columns don't match"
  else
  let graph := if to_use.getD 1 false then
      appendAll (BA.data.map (fun p => (num_a + p.1, p.2))) graph
    else graph
  if to_use.getD 2 false ∧ num_a ≠ AA.rows then
    Except.error "Rows and Columns don't match"
  else
  let graph := if to_use.getD 2 false then
      appendAll (AA.data.map (fun p => (p.1, p.2))) graph
    else graph
  if to_use.getD 3 false ∧ BB.rows ≠ num_b then
    Except.error "Rows and Columns don't match"
  else
  let graph := if to_use.getD 3 false then
      appendAll (BB.data.map (fun p => (num_a + p.1, num_a + p.2))) graph
    else graph
  Except.ok graph

/-- Accumulated nonzero positions of the four quadrants under construction. -/
structure Quad where
  ab : List (Nat × Nat)
  ba : List (Nat × Nat)
  aa : List (Nat × Nat)
  bb : List (Nat × Nat)
  deriving Repr, DecidableEq

/-- `to_matrix`'s inner loop over one vertex's target list, classifying each
edge into a quadrant (`AA[i,j] = 1` etc. records the position). -/
def toMatrixRow (num_a : Nat) (i : Nat) (targets : List Nat) (acc : Quad) : Quad :=
  match targets with
  | [] => acc
  | j :: rest =>
    let acc :=
      if i < num_a then
        if j < num_a then { acc with aa := acc.aa ++ [(i, j)] }
        else { acc with ab := acc.ab ++ [(i, j - num_a)] }
      else
        if j < num_a then { acc with ba := acc.ba ++ [(i - num_a, j)] }
        else { acc with bb := acc.bb ++ [(i - num_a, j - num_a)] }
    toMatrixRow num_a i rest acc

/-- `to_matrix`'s outer loop: `for i, target_list in enumerate(graph)`. -/
def toMatrixAux (num_a : Nat) (i : Nat) (rows : List (List Nat)) (acc : Quad) : Quad :=
  match rows with
  | [] => acc
  | targets :: rest => toMatrixAux num_a (i + 1) rest (toMatrixRow num_a i targets acc)

/-- `to_matrix(graph, num_a, num_b)`: return the four block matrices of a graph. -/
def to_matrix (graph : List (List Nat)) (num_a num_b : Nat) :
    SpMat × SpMat × SpMat × SpMat :=
  let q := toMatrixAux num_a 0 graph ⟨[], [], [], []⟩
  (⟨num_a, num_b, q.ab⟩, ⟨num_b, num_a, q.ba⟩, ⟨num_a, num_a, q.aa⟩, ⟨num_b, num_b, q.bb⟩)

/-- The graph `from_matrix` builds when no dimension check fails: the four
quadrant scatters applied in source order, each guarded by its selector. -/
def fmGraph (AB BA AA BB : SpMat) (t0 t1 t2 t3 : Bool) : List (List Nat) :=
  let num_a := AB.rows
  let g : List (List Nat) := List.replicate (AB.rows + AB.cols) []
  let g := if t0 then appendAll (AB.data.map (fun p => (p.1, num_a + p.2))) g else g
  let g := if t1 then appendAll (BA.data.map (fun p => (num_a + p.1, p.2))) g else g
  let g := if t2 then appendAll (AA.data.map (fun p => (p.1, p.2))) g else g
  let g := if t3 then appendAll (BB.data.map (fun p => (num_a + p.1, num_a + p.2))) g
    else g
  g

/-- Outcome of `find_path`: either a path, Python's `None`, a raised
`IndexError`, or exhaustion of the recursion fuel used by the embedding. -/
inductive FPR where
  | fuelOut
  | indexError
  | nopath
  | path (p : List Nat)
  deriving Repr, DecidableEq

/-- The `for node in graph[start]` loop of `find_path`: skip nodes already on
the path, return the first successful recursive result (`fp` is the recursive
call at the remaining fuel), propagate failures. -/
def findPathKids (fp : Nat → List Nat → FPR) (path : List Nat)
    (kids : List Nat) : FPR :=
  match kids with
  | [] => FPR.nopath
  | node :: rest =>
    if node ∈ path then findPathKids fp path rest
    else match fp node path with
      | FPR.path p => FPR.path p
      | FPR.nopath => findPathKids fp path rest
      | other => other

/-- `find_path(graph, start, end, path)`, instrumented with fuel: the body
appends `start` to `path`, succeeds when `start == end`, returns `None` when
`len(graph) < start`, and otherwise iterates over `graph[start]` — which
raises `IndexError` exactly when `start == len(graph)`. -/
def findPathAux (g : List (List Nat)) : Nat → Nat → Nat → List Nat → FPR
  | 0, _, _, _ => FPR.fuelOut
  | fuel + 1, start, endv, path =>
    let path2 := path ++ [start]
    if start = endv then FPR.path path2
    else if g.length < start then FPR.nopath
    else match g[start]? with
      | none => FPR.indexError
      | some children =>
        findPathKids (fun node p => findPathAux g fuel node endv p) path2 children

/-- `find_path(graph, start, end)` with fuel sufficient for the no-revisit
guard (the path can hold at most one copy of each vertex, plus the start). -/
def find_path (g : List (List Nat)) (start endv : Nat) : FPR :=
  findPathAux g (g.length + 1) start endv []

/-- `is_reachable(graph, end, start_set)`; a crash inside `find_path`
propagates out of the loop. -/
def is_reachable (g : List (List Nat)) (endv : Nat) (startSet : List Nat) :
    Except Unit Bool :=
  match startSet with
  | [] => Except.ok false
  | s :: rest =>
    match find_path g s endv with
    | FPR.path _ => Except.ok true
    | FPR.nopath => is_reachable g endv rest
    | _ => Except.error ()

/-- `find_connected(graph, start_set, end_set)`. -/
def find_connected (g : List (List Nat)) (startSet endSet : List Nat) :
    Except Unit (List Nat) :=
  match endSet with
  | [] => Except.ok []
  | e :: rest =>
    match is_reachable g e startSet with
    | Except.ok b =>
      match find_connected g startSet rest with
      | Except.ok l => Except.ok (if b then e :: l else l)
      | err => err
    | Except.error u => Except.error u

/-- The `for child in graph[source]` loop of `dls`, threading `any_remaining`
and returning early on the first goal found (`f` is the recursive search at
the next smaller depth). -/
def dlsKids (f : Nat → Option Nat × Bool) (kids : List Nat) (anyRem : Bool) :
    Option Nat × Bool :=
  match kids with
  | [] => (none, anyRem)
  | c :: rest =>
    match f c with
    | (some v, _) => (some v, true)
    | (none, r) => dlsKids f rest (anyRem || r)

/-- `dls(graph, source, goals, depth)`: depth-limited depth-first search.
At depth 0 it reports whether `source` is a goal, with the second component
(`remaining`) always `true`; at depth `d+1` it scans `graph[source]`. -/
def dls (g : List (List Nat)) (goals : List Nat) : Nat → Nat → Option Nat × Bool
  | 0, source => if source ∈ goals then (some source, true) else (none, true)
  | d + 1, source => dlsKids (dls g goals d) (g.getD source []) false

/-- The `for depth in range(max_depth + 1)` loop of `iddfs`: `d` is the depth
to try next, `k` counts the iterations still allowed. -/
def iddfsFrom (g : List (List Nat)) (goals : List Nat) (source : Nat)
    (d : Nat) (k : Nat) : Option Nat :=
  match k with
  | 0 => none
  | k + 1 =>
    match dls g goals d source with
    | (some f, _) => some f
    | (none, remaining) =>
      if remaining then iddfsFrom g goals source (d + 1) k else none

/-- `iddfs(graph, source, goals, max_depth)`: iterative deepening
depth-first search. -/
def iddfs (g : List (List Nat)) (source : Nat) (goals : List Nat)
    (maxDepth : Nat) : Option Nat :=
  iddfsFrom g goals source 0 (maxDepth + 1)

/-- `find_connected_limited(graph, start_set, end_set, max_depth)` with the
reverse graph computed internally (the `reverse_graph=None` default). -/
def find_connected_limited (g : List (List Nat)) (startSet endSet : List Nat)
    (maxDepth : Nat) : List Nat :=
  let rg := reverse g
  endSet.filter (fun e => (iddfs rg e startSet maxDepth).isSome)

/-! Specification-side notions used to state the claims. -/

/-- Every adjacency target is a valid vertex index. -/
def Valid (g : List (List Nat)) : Prop :=
  ∀ l ∈ g, ∀ v ∈ l, v < g.length

instance (g : List (List Nat)) : Decidable (Valid g) := by
  unfold Valid; infer_instance

/-- There is a walk of exactly `n` edges from `u` to `v`. -/
def hasWalk (g : List (List Nat)) (n : Nat) (u v : Nat) : Bool :=
  match n with
  | 0 => u == v
  | n + 1 => (g.getD u []).any (fun w => hasWalk g n w v)

/-- There is a walk of exactly `n` edges starting at `u` (the depth-`n`
search frontier below `u` is nonempty). -/
def frontier (g : List (List Nat)) (n : Nat) (u : Nat) : Bool :=
  match n with
  | 0 => true
  | n + 1 => (g.getD u []).any (fun w => frontier g n w)

/-- There is a walk of exactly `n` edges from `u` ending in a goal. -/
def reachGoal (g : List (List Nat)) (goals : List Nat) (n : Nat) (u : Nat) : Bool :=
  match n with
  | 0 => goals.contains u
  | n + 1 => (g.getD u []).any (fun w => reachGoal g goals n w)

/-- The edge relation of a graph: there is an edge from `a` to `b`. -/
def EdgeRel (g : List (List Nat)) (a b : Nat) : Prop :=
  b ∈ g.getD a []

/-- There is a duplicate-free path of at most `maxDepth` edges from `s` to `t`:
a nonempty vertex sequence starting at `s`, ending at `t`, consecutive
vertices joined by edges, no vertex repeated. -/
def HasPathLe (g : List (List Nat)) (maxDepth : Nat) (s t : Nat) : Prop :=
  ∃ p : List Nat, List.Chain' (EdgeRel g) p ∧ p.Nodup ∧ p.head? = some s ∧
    p.getLast? = some t ∧ p.length ≤ maxDepth + 1

/-- The number of copies of `x` that reversing `rows` (whose first row has
vertex index `n`) adds to the reversed adjacency list of vertex `u`. -/
def revCount (rows : List (List Nat)) (n u x : Nat) : Nat :=
  match rows with
  | [] => 0
  | children :: rest =>
    (if n = x then children.count u else 0) + revCount rest (n + 1) u x

/-! Basic lemmas about `appendAt` and `appendAll`. -/

theorem length_appendAt (l : List (List Nat)) (i x : Nat) :
    (appendAt l i x).length = l.length :=
  List.length_set l i _

theorem appendAt_oob (l : List (List Nat)) (i x : Nat) (h : l.length ≤ i) :
    appendAt l i x = l :=
  List.set_eq_of_length_le h

theorem getD_appendAt_self (l : List (List Nat)) (i x : Nat) (h : i < l.length) :
    (appendAt l i x).getD i [] = l.getD i [] ++ [x] := by
  simp [appendAt, List.getD_eq_getElem?_getD, List.getElem?_set_self, h]

theorem getD_appendAt_ne (l : List (List Nat)) (i j x : Nat) (h : j ≠ i) :
    (appendAt l i x).getD j [] = l.getD j [] := by
  simp [appendAt, List.getD_eq_getElem?_getD, List.getElem?_set_ne (Ne.symm h)]

theorem length_appendAll (ps : List (Nat × Nat)) (acc : List (List Nat)) :
    (appendAll ps acc).length = acc.length := by
  induction ps generalizing acc with
  | nil => rfl
  | cons p rest ih => rw [appendAll, ih, length_appendAt]

theorem count_appendAll (ps : List (Nat × Nat)) (acc : List (List Nat))
    (u x : Nat) (hu : u < acc.length) :
    ((appendAll ps acc).getD u []).count x
      = (acc.getD u []).count x + ps.count (u, x) := by
  induction ps generalizing acc with
  | nil => simp [appendAll]
  | cons p rest ih =>
    obtain ⟨i, y⟩ := p
    rw [appendAll]
    rw [ih (appendAt acc i y) (by rwa [length_appendAt])]
    have hpair : ((i, y) :: rest).count (u, x)
        = rest.count (u, x) + (if i = u ∧ y = x then 1 else 0) := by
      rw [List.count_cons]
      simp [Prod.ext_iff]
    rw [hpair]
    by_cases hi : i = u
    · subst hi
      rw [getD_appendAt_self acc i y hu, List.count_append,
        List.count_singleton' x y]
      by_cases hxy : y = x <;> simp [hxy] <;> omega
    · rw [getD_appendAt_ne acc i u y (Ne.symm hi)]
      simp [hi]

theorem getD_appendAll_oob (ps : List (Nat × Nat)) (acc : List (List Nat))
    (u : Nat) (hu : acc.length ≤ u) :
    (appendAll ps acc).getD u [] = [] :=
  List.getD_eq_default _ _ (by rwa [length_appendAll])

theorem mem_appendAll (ps : List (Nat × Nat)) (acc : List (List Nat))
    (u x : Nat) (hu : u < acc.length) :
    x ∈ (appendAll ps acc).getD u [] ↔ x ∈ acc.getD u [] ∨ (u, x) ∈ ps := by
  rw [← List.count_pos_iff, count_appendAll ps acc u x hu,
    ← List.count_pos_iff, ← List.count_pos_iff]
  omega

/-! Characterization of `reverse`: vertex count and per-vertex edge counts. -/

theorem addEdges_eq_appendAll (acc : List (List Nat)) (node : Nat)
    (children : List Nat) :
    addEdges acc node children
      = appendAll (children.map (fun c => (c, node))) acc := by
  induction children generalizing acc with
  | nil => rfl
  | cons c cs ih => rw [addEdges, List.map_cons, appendAll, ih]

theorem count_map_pair (children : List Nat) (node u x : Nat) :
    (children.map (fun c => (c, node))).count (u, x)
      = if node = x then children.count u else 0 := by
  induction children with
  | nil => simp
  | cons c cs ih =>
    simp only [List.map_cons, List.count_cons, ih, beq_iff_eq, Prod.mk.injEq]
    by_cases hn : node = x <;> by_cases hc : c = u <;> simp [hn, hc]

theorem length_reverseAux (rows : List (List Nat)) (acc : List (List Nat))
    (n : Nat) : (reverseAux acc n rows).length = acc.length := by
  induction rows generalizing acc n with
  | nil => rfl
  | cons children rest ih =>
    rw [reverseAux, ih, addEdges_eq_appendAll, length_appendAll]

theorem count_reverseAux (rows : List (List Nat)) (acc : List (List Nat))
    (n u x : Nat) (hu : u < acc.length) :
    ((reverseAux acc n rows).getD u []).count x
      = (acc.getD u []).count x + revCount rows n u x := by
  induction rows generalizing acc n with
  | nil => simp [reverseAux, revCount]
  | cons children rest ih =>
    rw [reverseAux, revCount, addEdges_eq_appendAll]
    rw [ih _ _ (by rwa [length_appendAll])]
    rw [count_appendAll _ _ _ _ hu, count_map_pair]
    omega

theorem revCount_eq (rows : List (List Nat)) (n u x : Nat) :
    revCount rows n u x
      = if n ≤ x then (rows.getD (x - n) []).count u else 0 := by
  induction rows generalizing n with
  | nil => simp [revCount]
  | cons children rest ih =>
    rw [revCount, ih]
    by_cases hn : n = x
    · subst hn
      simp [Nat.sub_self]
    · by_cases hle : n ≤ x
      · have hlt : n < x := lt_of_le_of_ne hle hn
        have h1 : n + 1 ≤ x := hlt
        have h2 : x - n = (x - (n + 1)) + 1 := by omega
        simp [hn, hle, h1, h2]
      · have h1 : ¬(n + 1 ≤ x) := by omega
        simp [hn, hle, h1]

theorem length_reverse (g : List (List Nat)) : (reverse g).length = g.length := by
  rw [reverse, length_reverseAux, List.length_replicate]

theorem count_reverse (g : List (List Nat)) (u x : Nat) (hu : u < g.length) :
    ((reverse g).getD u []).count x = (g.getD x []).count u := by
  rw [reverse, count_reverseAux _ _ _ _ _ (by simpa using hu), revCount_eq]
  have hrep : (List.replicate g.length ([] : List Nat)).getD u [] = [] := by
    simp [List.getD_eq_getElem?_getD]
  simp [hrep]

theorem mem_reverse (g : List (List Nat)) (u x : Nat) (hu : u < g.length) :
    x ∈ (reverse g).getD u [] ↔ u ∈ g.getD x [] := by
  rw [← List.count_pos_iff, ← List.count_pos_iff, count_reverse g u x hu]

/-! Walk lemmas. -/

theorem reachGoal_imp_frontier (g : List (List Nat)) (goals : List Nat) :
    ∀ n u, reachGoal g goals n u = true → frontier g n u = true := by
  intro n
  induction n with
  | zero => intro u _; rfl
  | succ n ih =>
    intro u h
    rw [reachGoal] at h
    rw [frontier]
    rcases List.any_eq_true.mp h with ⟨w, hw, hrw⟩
    exact List.any_eq_true.mpr ⟨w, hw, ih w hrw⟩

theorem frontier_succ_imp (g : List (List Nat)) :
    ∀ n u, frontier g (n + 1) u = true → frontier g n u = true := by
  intro n
  induction n with
  | zero => intro u _; rfl
  | succ n ih =>
    intro u h
    rw [frontier] at h
    rw [frontier]
    rcases List.any_eq_true.mp h with ⟨w, hw, hrw⟩
    exact List.any_eq_true.mpr ⟨w, hw, ih w hrw⟩

theorem frontier_false_of_le (g : List (List Nat)) (u : Nat) {m n : Nat}
    (hmn : m ≤ n) (h : frontier g m u = false) : frontier g n u = false := by
  induction n with
  | zero =>
    have : m = 0 := Nat.le_zero.mp hmn
    subst this; exact h
  | succ n ih =>
    rcases Nat.lt_or_ge m (n + 1) with hlt | hge
    · have hn : frontier g n u = false := ih (Nat.lt_succ_iff.mp hlt)
      cases hf : frontier g (n + 1) u with
      | false => rfl
      | true => rw [frontier_succ_imp g n u hf] at hn; cases hn
    · have : m = n + 1 := Nat.le_antisymm hmn hge
      subst this; exact h

theorem reachGoal_iff_exists_walk (g : List (List Nat)) (goals : List Nat) :
    ∀ n u, reachGoal g goals n u = true ↔ ∃ t ∈ goals, hasWalk g n u t = true := by
  intro n
  induction n with
  | zero =>
    intro u
    rw [reachGoal]
    constructor
    · intro h
      exact ⟨u, List.elem_iff.mp h, by simp [hasWalk]⟩
    · rintro ⟨t, ht, hut⟩
      have : u = t := by simpa [hasWalk] using hut
      subst this; exact List.elem_iff.mpr ht
  | succ n ih =>
    intro u
    rw [reachGoal]
    constructor
    · intro h
      rcases List.any_eq_true.mp h with ⟨w, hw, hrw⟩
      rcases (ih w).mp hrw with ⟨t, ht, hwt⟩
      refine ⟨t, ht, ?_⟩
      rw [hasWalk]
      exact List.any_eq_true.mpr ⟨w, hw, hwt⟩
    · rintro ⟨t, ht, hwalk⟩
      rw [hasWalk] at hwalk
      rcases List.any_eq_true.mp hwalk with ⟨w, hw, hwt⟩
      exact List.any_eq_true.mpr ⟨w, hw, (ih w).mpr ⟨t, ht, hwt⟩⟩

theorem hasWalk_snoc (g : List (List Nat)) :
    ∀ n u v, hasWalk g (n + 1) u v = true ↔
      ∃ w, hasWalk g n u w = true ∧ v ∈ g.getD w [] := by
  intro n
  induction n with
  | zero =>
    intro u v
    simp only [hasWalk, List.any_eq_true, beq_iff_eq]
    constructor
    · rintro ⟨w, hw, rfl⟩
      exact ⟨u, rfl, hw⟩
    · rintro ⟨w, rfl, hv⟩
      exact ⟨v, hv, rfl⟩
  | succ n ih =>
    intro u v
    constructor
    · intro h
      rw [hasWalk] at h
      rcases List.any_eq_true.mp h with ⟨c, hc, hwalk⟩
      rcases (ih c v).mp hwalk with ⟨w, hcw, hv⟩
      refine ⟨w, ?_, hv⟩
      rw [hasWalk]
      exact List.any_eq_true.mpr ⟨c, hc, hcw⟩
    · rintro ⟨w, hwalk, hv⟩
      rw [hasWalk] at hwalk
      rcases List.any_eq_true.mp hwalk with ⟨c, hc, hcw⟩
      rw [hasWalk]
      exact List.any_eq_true.mpr ⟨c, hc, (ih c v).mpr ⟨w, hcw, hv⟩⟩

theorem mem_getD_lt (g : List (List Nat)) (u x : Nat) (h : x ∈ g.getD u []) :
    u < g.length := by
  by_contra hc
  rw [List.getD_eq_default _ _ (Nat.le_of_not_lt hc)] at h
  cases h

theorem valid_mem_getD (g : List (List Nat)) (hval : Valid g) (u x : Nat)
    (h : x ∈ g.getD u []) : x < g.length := by
  have hu : u < g.length := mem_getD_lt g u x h
  have hmem : g.getD u [] ∈ g := by
    rw [List.getD_eq_getElem?_getD, List.getElem?_eq_getElem hu]
    exact List.getElem_mem hu
  exact hval _ hmem x h

theorem hasWalk_reverse (g : List (List Nat)) :
    ∀ n u v, u < g.length → v < g.length →
      (hasWalk (reverse g) n u v = true ↔ hasWalk g n v u = true) := by
  intro n
  induction n with
  | zero =>
    intro u v _ _
    simp only [hasWalk, beq_iff_eq]
    exact eq_comm
  | succ n ih =>
    intro u v hu hv
    rw [hasWalk_snoc g n v u]
    simp only [hasWalk, List.any_eq_true]
    constructor
    · rintro ⟨w, hw, hwalk⟩
      have hwg : u ∈ g.getD w [] := (mem_reverse g u w hu).mp hw
      have hwlt : w < g.length := mem_getD_lt g w u hwg
      exact ⟨w, (ih w v hwlt hv).mp hwalk, hwg⟩
    · rintro ⟨w, hwalk, hwg⟩
      have hwlt : w < g.length := mem_getD_lt g w u hwg
      exact ⟨w, (mem_reverse g u w hu).mpr hwg, (ih w v hwlt hv).mpr hwalk⟩

/-! Characterization of `dls`, `iddfs` and `find_connected_limited`. -/

theorem dls_spec (g : List (List Nat)) (goals : List Nat) :
    ∀ d s, ((dls g goals d s).1.isSome = reachGoal g goals d s)
      ∧ ((dls g goals d s).2 = frontier g d s) := by
  intro d
  induction d with
  | zero =>
    intro s
    rw [dls, reachGoal, frontier]
    by_cases hs : s ∈ goals
    · simp [hs, List.elem_iff.mpr hs]
    · simp only [if_neg hs]
      constructor
      · simp only [Option.isSome_none]
        cases hc : goals.contains s with
        | false => rfl
        | true => exact absurd (List.elem_iff.mp hc) hs
      · trivial
  | succ d ih =>
    intro s
    rw [dls, reachGoal, frontier]
    have kids : ∀ (kids : List Nat) (anyRem : Bool),
        ((dlsKids (dls g goals d) kids anyRem).1.isSome
            = kids.any (fun c => reachGoal g goals d c))
        ∧ ((dlsKids (dls g goals d) kids anyRem).2
            = (anyRem || kids.any (fun c => frontier g d c))) := by
      intro kids
      induction kids with
      | nil => intro anyRem; simp [dlsKids]
      | cons c rest ihk =>
        intro anyRem
        rw [dlsKids]
        rcases hc : dls g goals d c with ⟨found, r⟩
        have hc1 := (ih c).1
        have hc2 := (ih c).2
        rw [hc] at hc1 hc2
        cases found with
        | some f =>
          simp only [Option.isSome_some] at hc1
          have hfr : frontier g d c = true :=
            reachGoal_imp_frontier g goals d c hc1.symm
          simp [← hc1, hfr]
        | none =>
          simp only [Option.isSome_none] at hc1
          rcases ihk (anyRem || r) with ⟨ha, hb⟩
          refine ⟨?_, ?_⟩
          · rw [ha, List.any_cons, ← hc1, Bool.false_or]
          · rw [hb, List.any_cons, ← hc2, Bool.or_assoc]
    exact kids (g.getD s []) false

theorem iddfsFrom_none (g : List (List Nat)) (goals : List Nat) (s : Nat) :
    ∀ k d, iddfsFrom g goals s d k = none →
      ∀ j, d ≤ j → j < d + k → reachGoal g goals j s = false := by
  intro k
  induction k with
  | zero => intro d _ j _ hj; omega
  | succ k ih =>
    intro d h j hdj hjk
    rw [iddfsFrom] at h
    rcases hdls : dls g goals d s with ⟨found, r⟩
    rw [hdls] at h
    have h1 := (dls_spec g goals d s).1
    have h2 := (dls_spec g goals d s).2
    rw [hdls] at h1 h2
    cases found with
    | some f => cases h
    | none =>
      simp only [Option.isSome_none] at h1
      cases hr : r with
      | true =>
        rw [hr] at h
        simp only [if_true] at h
        rcases Nat.eq_or_lt_of_le hdj with heq | hlt
        · rw [← heq]; exact h1.symm
        · exact ih (d + 1) h j hlt (by omega)
      | false =>
        have hfr : frontier g d s = false := by rw [← h2, hr]
        have hj : frontier g j s = false := frontier_false_of_le g s hdj hfr
        cases hrg : reachGoal g goals j s with
        | false => rfl
        | true => rw [reachGoal_imp_frontier g goals j s hrg] at hj; cases hj

theorem iddfsFrom_some (g : List (List Nat)) (goals : List Nat) (s : Nat) :
    ∀ k d f, iddfsFrom g goals s d k = some f →
      ∃ j, d ≤ j ∧ j < d + k ∧ reachGoal g goals j s = true := by
  intro k
  induction k with
  | zero => intro d f h; cases h
  | succ k ih =>
    intro d f h
    rw [iddfsFrom] at h
    rcases hdls : dls g goals d s with ⟨found, r⟩
    rw [hdls] at h
    have h1 := (dls_spec g goals d s).1
    rw [hdls] at h1
    cases found with
    | some fd =>
      simp only [Option.isSome_some] at h1
      exact ⟨d, le_refl d, by omega, h1.symm⟩
    | none =>
      cases hr : r with
      | true =>
        rw [hr] at h
        simp only [if_true] at h
        rcases ih (d + 1) f h with ⟨j, hj1, hj2, hj3⟩
        exact ⟨j, by omega, by omega, hj3⟩
      | false => rw [hr] at h; simp at h

theorem iddfs_isSome_iff (g : List (List Nat)) (s : Nat) (goals : List Nat)
    (maxDepth : Nat) :
    (iddfs g s goals maxDepth).isSome = true ↔
      ∃ j ≤ maxDepth, reachGoal g goals j s = true := by
  rw [iddfs]
  cases h : iddfsFrom g goals s 0 (maxDepth + 1) with
  | some f =>
    simp only [Option.isSome_some, true_iff]
    rcases iddfsFrom_some g goals s (maxDepth + 1) 0 f h with ⟨j, _, hj2, hj3⟩
    exact ⟨j, by omega, hj3⟩
  | none =>
    simp only [Option.isSome_none, Bool.false_eq_true, false_iff]
    rintro ⟨j, hj, hrg⟩
    have := iddfsFrom_none g goals s (maxDepth + 1) 0 h j (Nat.zero_le j) (by omega)
    rw [this] at hrg
    cases hrg

theorem mem_find_connected_limited (g : List (List Nat))
    (sources sinks : List Nat) (maxDepth : Nat)
    (t : Nat) (ht : t < g.length) (hs : ∀ s ∈ sources, s < g.length) :
    t ∈ find_connected_limited g sources sinks maxDepth ↔
      t ∈ sinks ∧ ∃ d ≤ maxDepth, ∃ s ∈ sources, hasWalk g d s t = true := by
  rw [find_connected_limited, List.mem_filter]
  refine and_congr_right fun _ => ?_
  rw [iddfs_isSome_iff]
  constructor
  · rintro ⟨j, hj, hrg⟩
    rcases (reachGoal_iff_exists_walk (reverse g) sources j t).mp hrg
      with ⟨s, hsrc, hwalk⟩
    refine ⟨j, hj, s, hsrc, ?_⟩
    exact (hasWalk_reverse g j t s ht (hs s hsrc)).mp hwalk
  · rintro ⟨d, hd, s, hsrc, hwalk⟩
    refine ⟨d, hd, ?_⟩
    refine (reachGoal_iff_exists_walk (reverse g) sources d t).mpr ?_
    exact ⟨s, hsrc, (hasWalk_reverse g d t s ht (hs s hsrc)).mpr hwalk⟩

/-! Walks shorten to duplicate-free paths. -/

theorem pair_sublist_split {a : Nat} :
    ∀ {p : List Nat}, List.Sublist [a, a] p →
      ∃ l₁ l₂ l₃, p = l₁ ++ a :: l₂ ++ a :: l₃ := by
  intro p
  induction p with
  | nil => intro h; nomatch h
  | cons b rest ih =>
    intro h
    cases h with
    | cons x h2 =>
      obtain ⟨l₁, l₂, l₃, rfl⟩ := ih h2
      exact ⟨b :: l₁, l₂, l₃, rfl⟩
    | cons₂ x h2 =>
      have hmem : a ∈ rest := List.singleton_sublist.mp h2
      obtain ⟨s, t, rfl⟩ := List.append_of_mem hmem
      exact ⟨[], s, t, rfl⟩

theorem hasWalk_iff_chainList (g : List (List Nat)) :
    ∀ d s t, hasWalk g d s t = true ↔
      ∃ p, List.Chain' (EdgeRel g) p ∧ p.head? = some s ∧
        p.getLast? = some t ∧ p.length = d + 1 := by
  intro d
  induction d with
  | zero =>
    intro s t
    simp only [hasWalk, beq_iff_eq]
    constructor
    · rintro rfl
      exact ⟨[s], List.chain'_singleton s, rfl, rfl, rfl⟩
    · rintro ⟨p, _, hh, hl, hlen⟩
      obtain ⟨x, rfl⟩ := List.length_eq_one.mp hlen
      simp only [List.head?_cons, Option.some.injEq] at hh
      simp only [List.getLast?_singleton, Option.some.injEq] at hl
      rw [← hh, ← hl]
    | succ d ih =>
    intro s t
    constructor
    · intro h
      rw [hasWalk] at h
      rcases List.any_eq_true.mp h with ⟨c, hc, hw⟩
      rcases (ih c t).mp hw with ⟨q, hqc, hqh, hql, hqlen⟩
      have hqne : q ≠ [] := by
        intro hq; rw [hq] at hqh; cases hqh
      refine ⟨s :: q, ?_, rfl, ?_, by simp [hqlen]⟩
      · rw [List.chain'_cons']
        refine ⟨?_, hqc⟩
        intro y hy
        rw [hqh] at hy
        simp only [Option.mem_def, Option.some.injEq] at hy
        subst hy
        exact hc
      · rw [show s :: q = [s] ++ q from rfl,
          List.getLast?_append_of_ne_nil [s] hqne]
        exact hql
    · rintro ⟨p, hc, hh, hl, hlen⟩
      cases p with
      | nil => cases hh
      | cons a q =>
        simp only [List.head?_cons, Option.some.injEq] at hh
        subst hh
        have hqne : q ≠ [] := by
          intro hq
          rw [hq] at hlen
          simp at hlen
        obtain ⟨c, hch⟩ : ∃ c, q.head? = some c := by
          cases q with
          | nil => exact absurd rfl hqne
          | cons c q2 => exact ⟨c, rfl⟩
        rw [List.chain'_cons'] at hc
        have hRc : c ∈ g.getD a [] := hc.1 c (by rw [hch]; rfl)
        have hqlast : q.getLast? = some t := by
          rw [show a :: q = [a] ++ q from rfl,
            List.getLast?_append_of_ne_nil [a] hqne] at hl
          exact hl
        have hwq : hasWalk g d c t = true := by
          refine (ih c t).mpr ⟨q, hc.2, hch, hqlast, ?_⟩
          simp only [List.length_cons] at hlen
          omega
        rw [hasWalk]
        exact List.any_eq_true.mpr ⟨c, hRc, hwq⟩

theorem chainList_dedup (g : List (List Nat)) :
    ∀ (n : Nat) (p : List Nat), p.length ≤ n → List.Chain' (EdgeRel g) p →
      ∃ q, List.Chain' (EdgeRel g) q ∧ q.Nodup ∧ q.head? = p.head? ∧
        q.getLast? = p.getLast? ∧ q.length ≤ p.length := by
  intro n
  induction n with
  | zero =>
    intro p hlen _
    have : p = [] := List.length_eq_zero.mp (Nat.le_zero.mp hlen)
    subst this
    exact ⟨[], List.chain'_nil, List.nodup_nil, rfl, rfl, le_refl _⟩
  | succ n ih =>
    intro p hlen hc
    by_cases hnd : p.Nodup
    · exact ⟨p, hc, hnd, rfl, rfl, le_refl _⟩
    · obtain ⟨a, ha⟩ : ∃ a, List.Sublist [a, a] p := by
        by_contra hno
        push_neg at hno
        exact hnd (List.nodup_iff_sublist.mpr hno)
      obtain ⟨l₁, l₂, l₃, rfl⟩ := pair_sublist_split ha
      obtain ⟨hc1, hc2, hlink⟩ := List.chain'_append.mp hc
      obtain ⟨hc1a, hc1b, hlink1⟩ := List.chain'_append.mp hc1
      have hqc : List.Chain' (EdgeRel g) (l₁ ++ a :: l₃) := by
        rw [List.chain'_append]
        refine ⟨hc1a, hc2, ?_⟩
        intro x hx y hy
        simp only [List.head?_cons, Option.mem_def, Option.some.injEq] at hy
        subst hy
        exact hlink1 x hx a (by simp)
      have hqh : (l₁ ++ a :: l₃).head? = (l₁ ++ a :: l₂ ++ a :: l₃).head? := by
        cases l₁ with
        | nil => rfl
        | cons b l => rfl
      have hql : (l₁ ++ a :: l₃).getLast? = (l₁ ++ a :: l₂ ++ a :: l₃).getLast? := by
        rw [List.getLast?_append_of_ne_nil l₁ (List.cons_ne_nil a l₃),
          List.getLast?_append_of_ne_nil (l₁ ++ a :: l₂) (List.cons_ne_nil a l₃)]
      have hqlen : (l₁ ++ a :: l₃).length < (l₁ ++ a :: l₂ ++ a :: l₃).length := by
        simp only [List.length_append, List.length_cons]
        omega
      obtain ⟨q, hq1, hq2, hq3, hq4, hq5⟩ :=
        ih (l₁ ++ a :: l₃)
          (by simp only [List.length_append, List.length_cons] at hlen ⊢; omega) hqc
      refine ⟨q, hq1, hq2, ?_, ?_, ?_⟩
      · rw [hq3, hqh]
      · rw [hq4, hql]
      · omega

theorem hasPathLe_iff_exists_walk (g : List (List Nat)) (maxDepth s t : Nat) :
    HasPathLe g maxDepth s t ↔ ∃ d ≤ maxDepth, hasWalk g d s t = true := by
  constructor
  · rintro ⟨p, hc, _, hh, hl, hlen⟩
    have hpne : p ≠ [] := by
      intro hp; rw [hp] at hh; cases hh
    have hplen : 1 ≤ p.length := by
      cases p with
      | nil => exact absurd rfl hpne
      | cons a q => simp
    refine ⟨p.length - 1, by omega, ?_⟩
    exact (hasWalk_iff_chainList g (p.length - 1) s t).mpr
      ⟨p, hc, hh, hl, by omega⟩
  · rintro ⟨d, hd, hw⟩
    rcases (hasWalk_iff_chainList g d s t).mp hw with ⟨p, hc, hh, hl, hlen⟩
    rcases chainList_dedup g p.length p (le_refl _) hc with
      ⟨q, hq1, hq2, hq3, hq4, hq5⟩
    exact ⟨q, hq1, hq2, by rw [hq3, hh], by rw [hq4, hl], by omega⟩

/-! `find_path` terminates within fuel `g.length + 1`: the no-revisit guard
keeps the accumulated path duplicate-free, so its length is bounded by the
vertex count. -/

theorem nodup_bounded_length (p : List Nat) (n : Nat) (hnd : p.Nodup)
    (hb : ∀ x ∈ p, x < n) : p.length ≤ n := by
  have hcard : p.toFinset.card = p.length := List.toFinset_card_of_nodup hnd
  have hsub : p.toFinset ⊆ Finset.range n := by
    intro x hx
    exact Finset.mem_range.mpr (hb x (List.mem_toFinset.mp hx))
  have := Finset.card_le_card hsub
  rw [Finset.card_range] at this
  omega

theorem findPathAux_ne_fuelOut (g : List (List Nat)) (hval : Valid g) :
    ∀ fuel endv start path, path.Nodup → (∀ x ∈ path, x < g.length) →
      start ∉ path → g.length + 1 ≤ path.length + fuel →
      findPathAux g fuel start endv path ≠ FPR.fuelOut := by
  intro fuel
  induction fuel with
  | zero =>
    intro endv start path hnd hb _ hlen
    have hle := nodup_bounded_length path g.length hnd hb
    exact absurd hlen (by omega)
  | succ fuel ih =>
    intro endv start path hnd hb hs hlen
    rw [findPathAux]
    by_cases he : start = endv
    · simp [he]
    · rw [if_neg he]
      by_cases hlt : g.length < start
      · simp [hlt]
      · rw [if_neg hlt]
        cases hchild : g[start]? with
        | none => simp
        | some children =>
          have hstart : start < g.length := by
            by_contra hc
            rw [List.getElem?_eq_none (by omega)] at hchild
            cases hchild
          have hchildren : ∀ c ∈ children, c < g.length := by
            intro c hc
            have hgd : g.getD start [] = children := by
              rw [List.getD_eq_getElem?_getD, hchild]
              rfl
            exact valid_mem_getD g hval start c (by rw [hgd]; exact hc)
          have hnd2 : (path ++ [start]).Nodup := by
            rw [List.nodup_append]
            refine ⟨hnd, List.nodup_singleton start, ?_⟩
            intro a ha hmem
            simp only [List.mem_singleton] at hmem
            rw [hmem] at ha
            exact hs ha
          have hb2 : ∀ x ∈ path ++ [start], x < g.length := by
            intro x hx
            rcases List.mem_append.mp hx with h | h
            · exact hb x h
            · simp only [List.mem_singleton] at h
              rw [h]; exact hstart
          have hlen2 : g.length + 1 ≤ (path ++ [start]).length + fuel := by
            simp only [List.length_append, List.length_singleton]
            omega
          have hkids : ∀ kids, (∀ c ∈ kids, c < g.length) →
              findPathKids (fun node p => findPathAux g fuel node endv p)
                (path ++ [start]) kids ≠ FPR.fuelOut := by
            intro kids
            induction kids with
            | nil => intro _; simp [findPathKids]
            | cons c rest ihk =>
              intro hk
              rw [findPathKids]
              by_cases hcp : c ∈ path ++ [start]
              · rw [if_pos hcp]
                exact ihk fun x hx => hk x (List.mem_cons_of_mem c hx)
              · rw [if_neg hcp]
                have hres := ih endv c (path ++ [start]) hnd2 hb2 hcp
                  (by simp only [List.length_append, List.length_singleton]; omega)
                cases hr : findPathAux g fuel c endv (path ++ [start]) with
                | fuelOut => exact absurd hr hres
                | indexError => simp
                | nopath => exact ihk fun x hx => hk x (List.mem_cons_of_mem c hx)
                | path p => simp
          exact hkids children hchildren

theorem find_path_ne_fuelOut (g : List (List Nat)) (hval : Valid g)
    (s e : Nat) : find_path g s e ≠ FPR.fuelOut := by
  refine findPathAux_ne_fuelOut g hval (g.length + 1) e s [] List.nodup_nil
    (by intro x hx; cases hx) (by intro hx; cases hx) (by simp)

/-! `from_matrix` lemmas. -/

theorem getD_replicate_nil (n u : Nat) :
    (List.replicate n ([] : List Nat)).getD u [] = [] := by
  rw [List.getD_eq_getElem?_getD, List.getElem?_replicate]
  by_cases h : u < n <;> simp [h]

theorem from_matrix_eq_ok (AB BA AA BB : SpMat) (t0 t1 t2 t3 : Bool)
    (c1 : t1 = true → BA.cols = AB.rows ∧ BA.rows = AB.cols)
    (c2 : t2 = true → AA.rows = AB.rows)
    (c3 : t3 = true → BB.rows = AB.cols) :
    from_matrix AB BA AA BB [t0, t1, t2, t3]
      = Except.ok (fmGraph AB BA AA BB t0 t1 t2 t3) := by
  rw [from_matrix, fmGraph]
  cases t1 with
  | false => cases t2 with
    | false => cases t3 with
      | false => simp
      | true => simp [c3 rfl]
    | true => cases t3 with
      | false => simp [c2 rfl]
      | true => simp [c2 rfl, c3 rfl]
  | true => cases t2 with
    | false => cases t3 with
      | false => simp [(c1 rfl).1, (c1 rfl).2]
      | true => simp [(c1 rfl).1, (c1 rfl).2, c3 rfl]
    | true => cases t3 with
      | false => simp [(c1 rfl).1, (c1 rfl).2, c2 rfl]
      | true => simp [(c1 rfl).1, (c1 rfl).2, c2 rfl, c3 rfl]

theorem fmGraph_length (AB BA AA BB : SpMat) (t0 t1 t2 t3 : Bool) :
    (fmGraph AB BA AA BB t0 t1 t2 t3).length = AB.rows + AB.cols := by
  rw [fmGraph]
  cases t0 <;> cases t1 <;> cases t2 <;> cases t3 <;>
    simp [length_appendAll, List.length_replicate]

theorem mem_ifAppend (t : Bool) (ps : List (Nat × Nat)) (acc : List (List Nat))
    (u v : Nat) (hu : u < acc.length) :
    v ∈ (if t then appendAll ps acc else acc).getD u [] ↔
      v ∈ acc.getD u [] ∨ (t = true ∧ (u, v) ∈ ps) := by
  cases t with
  | false => simp
  | true =>
    rw [if_pos rfl, mem_appendAll ps acc u v hu]
    simp

theorem length_ifAppend (t : Bool) (ps : List (Nat × Nat))
    (acc : List (List Nat)) :
    (if t then appendAll ps acc else acc).length = acc.length := by
  cases t <;> simp [length_appendAll]

theorem mem_fmGraph (AB BA AA BB : SpMat) (t0 t1 t2 t3 : Bool) (u v : Nat)
    (hu : u < AB.rows + AB.cols) :
    v ∈ (fmGraph AB BA AA BB t0 t1 t2 t3).getD u [] ↔
      (t0 = true ∧ (u, v) ∈ AB.data.map (fun p => (p.1, AB.rows + p.2)))
      ∨ (t1 = true ∧ (u, v) ∈ BA.data.map (fun p => (AB.rows + p.1, p.2)))
      ∨ (t2 = true ∧ (u, v) ∈ AA.data.map (fun p => (p.1, p.2)))
      ∨ (t3 = true ∧ (u, v) ∈ BB.data.map (fun p => (AB.rows + p.1, AB.rows + p.2))) := by
  simp only [fmGraph]
  rw [mem_ifAppend, mem_ifAppend, mem_ifAppend, mem_ifAppend, getD_replicate_nil]
  · simp only [List.not_mem_nil, false_or, or_assoc]
  · simpa using hu
  · rw [length_ifAppend]; simpa using hu
  · rw [length_ifAppend, length_ifAppend]; simpa using hu
  · rw [length_ifAppend, length_ifAppend, length_ifAppend]; simpa using hu

/-! `to_matrix` lemmas: membership in each quadrant's nonzero list. -/

theorem mem_toMatrixRow_ab (na i : Nat) :
    ∀ (targets : List Nat) (acc : Quad) (r c : Nat),
      ((r, c) ∈ (toMatrixRow na i targets acc).ab ↔
        (r, c) ∈ acc.ab ∨ (r = i ∧ i < na ∧ (na + c) ∈ targets)) := by
  intro targets
  induction targets with
  | nil => intro acc r c; simp [toMatrixRow]
  | cons j rest ih =>
    intro acc r c
    rw [toMatrixRow]
    by_cases hi : i < na
    · by_cases hj : j < na
      · rw [if_pos hi, if_pos hj, ih]
        have hne : ¬(na + c = j) := by omega
        simp [List.mem_cons, hne, hi]
      · rw [if_pos hi, if_neg hj, ih]
        have hiff : ((r, c) = (i, j - na)) ↔ (r = i ∧ na + c = j) := by
          rw [Prod.mk.injEq]
          constructor
          · rintro ⟨h1, h2⟩; exact ⟨h1, by omega⟩
          · rintro ⟨h1, h2⟩; exact ⟨h1, by omega⟩
        simp only [List.mem_append, List.mem_singleton, hiff, List.mem_cons, hi,
          true_and]
        tauto
    · rw [if_neg hi, ih]
      by_cases hj : j < na
      · rw [if_pos hj]
        simp [hi]
      · rw [if_neg hj]
        simp [hi]

theorem mem_toMatrixAux_ab (na : Nat) :
    ∀ (rows : List (List Nat)) (i : Nat) (acc : Quad) (r c : Nat),
      ((r, c) ∈ (toMatrixAux na i rows acc).ab ↔
        (r, c) ∈ acc.ab ∨ (i ≤ r ∧ r < na ∧ (na + c) ∈ rows.getD (r - i) [])) := by
  intro rows
  induction rows with
  | nil => intro i acc r c; simp [toMatrixAux, List.getD_nil]
  | cons targets rest ih =>
    intro i acc r c
    rw [toMatrixAux, ih, mem_toMatrixRow_ab]
    by_cases hri : r = i
    · subst hri
      have h0 : r - r = 0 := by omega
      rw [h0, List.getD_cons_zero]
      constructor
      · rintro ((h | h) | h)
        · exact Or.inl h
        · exact Or.inr ⟨le_refl r, h.2⟩
        · exact absurd h.1 (by omega)
      · rintro (h | ⟨h1, h2, h3⟩)
        · exact Or.inl (Or.inl h)
        · exact Or.inl (Or.inr ⟨rfl, h2, h3⟩)
    · by_cases hle : i ≤ r
      · have hlt : i < r := by omega
        have hstep : r - i = (r - (i + 1)) + 1 := by omega
        rw [hstep, List.getD_cons_succ]
        constructor
        · rintro (h | h)
          · rcases h with h | h
            · tauto
            · exact absurd h.1 hri
          · exact Or.inr ⟨by omega, h.2⟩
        · rintro (h | ⟨h1, h2, h3⟩)
          · tauto
          · exact Or.inr ⟨by omega, h2, h3⟩
      · constructor
        · rintro (h | h)
          · rcases h with h | h
            · tauto
            · exact absurd h.1 hri
          · exact absurd h.1 (by omega)
        · rintro (h | h)
          · tauto
          · exact absurd h.1 hle

theorem mem_to_matrix_ab (G : List (List Nat)) (na nb r c : Nat) :
    ((r, c) ∈ (to_matrix G na nb).1.data ↔ r < na ∧ (na + c) ∈ G.getD r []) := by
  show ((r, c) ∈ (toMatrixAux na 0 G ⟨[], [], [], []⟩).ab ↔ _)
  rw [mem_toMatrixAux_ab]
  simp

theorem mem_toMatrixRow_ba (na i : Nat) :
    ∀ (targets : List Nat) (acc : Quad) (r c : Nat),
      ((r, c) ∈ (toMatrixRow na i targets acc).ba ↔
        (r, c) ∈ acc.ba ∨ (na + r = i ∧ c < na ∧ c ∈ targets)) := by
  intro targets
  induction targets with
  | nil => intro acc r c; simp [toMatrixRow]
  | cons j rest ih =>
    intro acc r c
    rw [toMatrixRow]
    by_cases hi : i < na
    · have hne : ¬(na + r = i) := by omega
      rw [if_pos hi, ih]
      by_cases hj : j < na
      · rw [if_pos hj]; simp [hne]
      · rw [if_neg hj]; simp [hne]
    · rw [if_neg hi, ih]
      by_cases hj : j < na
      · rw [if_pos hj]
        have hiff : ((r, c) = (i - na, j)) ↔ (na + r = i ∧ c = j) := by
          rw [Prod.mk.injEq]
          constructor
          · rintro ⟨h1, h2⟩; exact ⟨by omega, h2⟩
          · rintro ⟨h1, h2⟩; exact ⟨by omega, h2⟩
        have himp : c = j → c < na := fun h => h ▸ hj
        simp only [List.mem_append, List.mem_singleton, hiff, List.mem_cons]
        tauto
      · rw [if_neg hj]
        have himp : c = j → ¬ c < na := fun h => h ▸ hj
        simp only [List.mem_cons]
        tauto

theorem mem_toMatrixAux_ba (na : Nat) :
    ∀ (rows : List (List Nat)) (i : Nat) (acc : Quad) (r c : Nat),
      ((r, c) ∈ (toMatrixAux na i rows acc).ba ↔
        (r, c) ∈ acc.ba ∨
          (i ≤ na + r ∧ c < na ∧ c ∈ rows.getD (na + r - i) [])) := by
  intro rows
  induction rows with
  | nil => intro i acc r c; simp [toMatrixAux, List.getD_nil]
  | cons targets rest ih =>
    intro i acc r c
    rw [toMatrixAux, ih, mem_toMatrixRow_ba]
    by_cases hri : na + r = i
    · have h0 : na + r - i = 0 := by omega
      rw [h0, List.getD_cons_zero]
      constructor
      · rintro ((h | h) | h)
        · exact Or.inl h
        · exact Or.inr ⟨by omega, h.2⟩
        · exact absurd h.1 (by omega)
      · rintro (h | ⟨h1, h2, h3⟩)
        · exact Or.inl (Or.inl h)
        · exact Or.inl (Or.inr ⟨hri, h2, h3⟩)
    · by_cases hle : i ≤ na + r
      · have hstep : na + r - i = (na + r - (i + 1)) + 1 := by omega
        rw [hstep, List.getD_cons_succ]
        constructor
        · rintro ((h | h) | h)
          · exact Or.inl h
          · exact absurd h.1 hri
          · exact Or.inr ⟨by omega, h.2⟩
        · rintro (h | ⟨h1, h2, h3⟩)
          · exact Or.inl (Or.inl h)
          · exact Or.inr ⟨by omega, h2, h3⟩
      · constructor
        · rintro ((h | h) | h)
          · exact Or.inl h
          · exact absurd h.1 hri
          · exact absurd h.1 (by omega)
        · rintro (h | h)
          · exact Or.inl (Or.inl h)
          · exact absurd h.1 hle

theorem mem_to_matrix_ba (G : List (List Nat)) (na nb r c : Nat) :
    ((r, c) ∈ (to_matrix G na nb).2.1.data ↔ c < na ∧ c ∈ G.getD (na + r) []) := by
  show ((r, c) ∈ (toMatrixAux na 0 G ⟨[], [], [], []⟩).ba ↔ _)
  rw [mem_toMatrixAux_ba]
  simp

theorem mem_toMatrixRow_aa (na i : Nat) :
    ∀ (targets : List Nat) (acc : Quad) (r c : Nat),
      ((r, c) ∈ (toMatrixRow na i targets acc).aa ↔
        (r, c) ∈ acc.aa ∨ (r = i ∧ i < na ∧ c < na ∧ c ∈ targets)) := by
  intro targets
  induction targets with
  | nil => intro acc r c; simp [toMatrixRow]
  | cons j rest ih =>
    intro acc r c
    rw [toMatrixRow]
    by_cases hi : i < na
    · by_cases hj : j < na
      · rw [if_pos hi, if_pos hj, ih]
        have hiff : ((r, c) = (i, j)) ↔ (r = i ∧ c = j) :=
          iff_of_eq (Prod.mk.injEq r c i j)
        have himp : c = j → c < na := fun h => h ▸ hj
        simp only [List.mem_append, List.mem_singleton, hiff, List.mem_cons]
        tauto
      · rw [if_pos hi, if_neg hj, ih]
        have himp : c = j → ¬ c < na := fun h => h ▸ hj
        simp only [List.mem_cons]
        tauto
    · rw [if_neg hi, ih]
      by_cases hj : j < na
      · rw [if_pos hj]; simp [hi]
      · rw [if_neg hj]; simp [hi]

theorem mem_toMatrixAux_aa (na : Nat) :
    ∀ (rows : List (List Nat)) (i : Nat) (acc : Quad) (r c : Nat),
      ((r, c) ∈ (toMatrixAux na i rows acc).aa ↔
        (r, c) ∈ acc.aa ∨
          (i ≤ r ∧ r < na ∧ c < na ∧ c ∈ rows.getD (r - i) [])) := by
  intro rows
  induction rows with
  | nil => intro i acc r c; simp [toMatrixAux, List.getD_nil]
  | cons targets rest ih =>
    intro i acc r c
    rw [toMatrixAux, ih, mem_toMatrixRow_aa]
    by_cases hri : r = i
    · subst hri
      have h0 : r - r = 0 := by omega
      rw [h0, List.getD_cons_zero]
      constructor
      · rintro ((h | h) | h)
        · exact Or.inl h
        · exact Or.inr ⟨le_refl r, h.2⟩
        · exact absurd h.1 (by omega)
      · rintro (h | ⟨h1, h2, h3, h4⟩)
        · exact Or.inl (Or.inl h)
        · exact Or.inl (Or.inr ⟨rfl, h2, h3, h4⟩)
    · by_cases hle : i ≤ r
      · have hstep : r - i = (r - (i + 1)) + 1 := by omega
        rw [hstep, List.getD_cons_succ]
        constructor
        · rintro ((h | h) | h)
          · exact Or.inl h
          · exact absurd h.1 hri
          · exact Or.inr ⟨by omega, h.2⟩
        · rintro (h | ⟨h1, h2, h3, h4⟩)
          · exact Or.inl (Or.inl h)
          · exact Or.inr ⟨by omega, h2, h3, h4⟩
      · constructor
        · rintro ((h | h) | h)
          · exact Or.inl h
          · exact absurd h.1 hri
          · exact absurd h.1 (by omega)
        · rintro (h | h)
          · exact Or.inl (Or.inl h)
          · exact absurd h.1 hle

theorem mem_to_matrix_aa (G : List (List Nat)) (na nb r c : Nat) :
    ((r, c) ∈ (to_matrix G na nb).2.2.1.data ↔
      r < na ∧ c < na ∧ c ∈ G.getD r []) := by
  show ((r, c) ∈ (toMatrixAux na 0 G ⟨[], [], [], []⟩).aa ↔ _)
  rw [mem_toMatrixAux_aa]
  simp

theorem mem_toMatrixRow_bb (na i : Nat) :
    ∀ (targets : List Nat) (acc : Quad) (r c : Nat),
      ((r, c) ∈ (toMatrixRow na i targets acc).bb ↔
        (r, c) ∈ acc.bb ∨ (na + r = i ∧ (na + c) ∈ targets)) := by
  intro targets
  induction targets with
  | nil => intro acc r c; simp [toMatrixRow]
  | cons j rest ih =>
    intro acc r c
    rw [toMatrixRow]
    by_cases hi : i < na
    · have hne : ¬(na + r = i) := by omega
      rw [if_pos hi, ih]
      by_cases hj : j < na
      · rw [if_pos hj]; simp [hne]
      · rw [if_neg hj]; simp [hne]
    · rw [if_neg hi, ih]
      by_cases hj : j < na
      · rw [if_pos hj]
        have hne : ¬(na + c = j) := by omega
        simp only [List.mem_cons]
        tauto
      · rw [if_neg hj]
        have hiff : ((r, c) = (i - na, j - na)) ↔ (na + r = i ∧ na + c = j) := by
          rw [Prod.mk.injEq]
          constructor
          · rintro ⟨h1, h2⟩; exact ⟨by omega, by omega⟩
          · rintro ⟨h1, h2⟩; exact ⟨by omega, by omega⟩
        simp only [List.mem_append, List.mem_singleton, hiff, List.mem_cons]
        tauto

theorem mem_toMatrixAux_bb (na : Nat) :
    ∀ (rows : List (List Nat)) (i : Nat) (acc : Quad) (r c : Nat),
      ((r, c) ∈ (toMatrixAux na i rows acc).bb ↔
        (r, c) ∈ acc.bb ∨
          (i ≤ na + r ∧ (na + c) ∈ rows.getD (na + r - i) [])) := by
  intro rows
  induction rows with
  | nil => intro i acc r c; simp [toMatrixAux, List.getD_nil]
  | cons targets rest ih =>
    intro i acc r c
    rw [toMatrixAux, ih, mem_toMatrixRow_bb]
    by_cases hri : na + r = i
    · have h0 : na + r - i = 0 := by omega
      rw [h0, List.getD_cons_zero]
      constructor
      · rintro ((h | h) | h)
        · exact Or.inl h
        · exact Or.inr ⟨by omega, h.2⟩
        · exact absurd h.1 (by omega)
      · rintro (h | ⟨h1, h2⟩)
        · exact Or.inl (Or.inl h)
        · exact Or.inl (Or.inr ⟨hri, h2⟩)
    · by_cases hle : i ≤ na + r
      · have hstep : na + r - i = (na + r - (i + 1)) + 1 := by omega
        rw [hstep, List.getD_cons_succ]
        constructor
        · rintro ((h | h) | h)
          · exact Or.inl h
          · exact absurd h.1 hri
          · exact Or.inr ⟨by omega, h.2⟩
        · rintro (h | ⟨h1, h2⟩)
          · exact Or.inl (Or.inl h)
          · exact Or.inr ⟨by omega, h2⟩
      · constructor
        · rintro ((h | h) | h)
          · exact Or.inl h
          · exact absurd h.1 hri
          · exact absurd h.1 (by omega)
        · rintro (h | h)
          · exact Or.inl (Or.inl h)
          · exact absurd h.1 hle

theorem mem_to_matrix_bb (G : List (List Nat)) (na nb r c : Nat) :
    ((r, c) ∈ (to_matrix G na nb).2.2.2.data ↔ (na + c) ∈ G.getD (na + r) []) := by
  show ((r, c) ∈ (toMatrixAux na 0 G ⟨[], [], [], []⟩).bb ↔ _)
  rw [mem_toMatrixAux_bb]
  simp

theorem getD_list_zero (a : Bool) (l : List Bool) (d : Bool) :
    (a :: l).getD 0 d = a := rfl

theorem getD_list_one (a b : Bool) (l : List Bool) (d : Bool) :
    (a :: b :: l).getD 1 d = b := rfl

theorem getD_list_two (a b c : Bool) (l : List Bool) (d : Bool) :
    (a :: b :: c :: l).getD 2 d = c := rfl

theorem getD_list_three (a b c e : Bool) (l : List Bool) (d : Bool) :
    (a :: b :: c :: e :: l).getD 3 d = e := rfl

theorem from_matrix_ok_inv (AB BA AA BB : SpMat) (t0 t1 t2 t3 : Bool)
    (G : List (List Nat))
    (h : from_matrix AB BA AA BB [t0, t1, t2, t3] = Except.ok G) :
    G = fmGraph AB BA AA BB t0 t1 t2 t3 := by
  simp only [from_matrix, getD_list_zero, getD_list_one, getD_list_two,
    getD_list_three] at h
  by_cases h1 : (t1 = true) ∧ (AB.rows ≠ BA.cols ∨ BA.rows ≠ AB.cols)
  · rw [if_pos h1] at h; cases h
  · rw [if_neg h1] at h
    by_cases h2 : (t2 = true) ∧ AB.rows ≠ AA.rows
    · rw [if_pos h2] at h; cases h
    · rw [if_neg h2] at h
      by_cases h3 : (t3 = true) ∧ BB.rows ≠ AB.cols
      · rw [if_pos h3] at h; cases h
      · rw [if_neg h3] at h
        injection h with hG
        rw [← hG, fmGraph]

/-! Claim theorems. -/

/-- Claim C3: for every graph `g` and valid vertex `v`, `find_path g v v`
returns the single-vertex path `[v]` (a vertex reaches itself by a zero-edge
path). -/
theorem claim_C3 (g : List (List Nat)) (v : Nat) (hv : v < g.length) :
    find_path g v v = FPR.path [v] := by
  simp [find_path, findPathAux]

/-- Claim C3 witness: the theorem applied to the one-vertex graph. -/
theorem claim_C3_witness :
    0 < ([[0]] : List (List Nat)).length ∧ find_path [[0]] 0 0 = FPR.path [0] :=
  ⟨by decide, claim_C3 [[0]] 0 (by decide)⟩

/-- Claim C4 counterexample: at `graph = [[1],[]]`, `source = 0`,
`goals = []`, `depth = 0`, the flag returned by `dls` is `true` even though
the search was cut off at the depth ceiling (vertex 0 still has out-edges
one step below the ceiling, witnessed by `frontier g 1 0 = true`), so the
flag is not "true iff fully explored without cutoff". -/
theorem claim_C4_counterexample :
    ¬(((dls [[1], []] [] 0 0).2 = true) ↔ (frontier [[1], []] 1 0 = false)) := by
  decide

/-- Claim C4 (amended): the boolean returned by `dls` is `true` iff a walk of
exactly `depth` edges leaves the source (the depth-ceiling frontier is
nonempty, i.e. the search was cut off there and deepening could reach more);
it is the opposite polarity of the claimed "fully explored" flag. -/
theorem claim_C4_amended (g : List (List Nat)) (goals : List Nat) (d s : Nat)
    (hval : Valid g) (hs : s < g.length) :
    (dls g goals d s).2 = frontier g d s :=
  (dls_spec g goals d s).2

/-- Claim C4 witness: the amended theorem applied at a concrete input. -/
theorem claim_C4_witness :
    Valid [[1], []] ∧ 0 < ([[1], []] : List (List Nat)).length ∧
      (dls [[1], []] [] 0 0).2 = frontier [[1], []] 0 0 :=
  ⟨by decide, by decide, claim_C4_amended [[1], []] [] 0 0 (by decide) (by decide)⟩

/-- Claim C5 evaluation: `find_path` only guards `len(graph) < start`, so at
`start = len(graph)` it indexes out of range (IndexError) instead of
returning `None`; `start > len(graph)` does return `None`, and the crash
propagates through `is_reachable` and `find_connected`. -/
theorem claim_C5_eval :
    find_path [[0]] 1 0 = FPR.indexError ∧
    find_path [[0]] 2 0 = FPR.nopath ∧
    is_reachable [[0]] 0 [1] = Except.error () ∧
    find_connected [[0]] [1] [0] = Except.error () :=
  ⟨by decide, by decide, rfl, rfl⟩

/-- Claim C6: for a graph with valid targets, `reverse (reverse g)` has the
same vertex count as `g` and, per vertex, the same multiset of out-edge
targets (stated via counts); the embedding's `reverse` is a pure function of
its input, so the no-mutation part is inherent. -/
theorem claim_C6 (g : List (List Nat)) (hval : Valid g) :
    (reverse (reverse g)).length = g.length ∧
    ∀ v, v < g.length → ∀ x,
      ((reverse (reverse g)).getD v []).count x = (g.getD v []).count x := by
  constructor
  · rw [length_reverse, length_reverse]
  · intro v hv x
    rw [count_reverse (reverse g) v x (by rw [length_reverse]; exact hv)]
    by_cases hx : x < g.length
    · exact count_reverse g x v hx
    · have h1 : (reverse g).getD x [] = [] :=
        List.getD_eq_default _ _ (by rw [length_reverse]; omega)
      have h2 : x ∉ g.getD v [] := fun hmem => hx (valid_mem_getD g hval v x hmem)
      rw [h1, List.count_nil, List.count_eq_zero.mpr h2]

/-- Claim C6 witness: the theorem applied to the two-cycle graph. -/
theorem claim_C6_witness :
    Valid [[1], [0]] ∧ 0 < ([[1], [0]] : List (List Nat)).length ∧
      ((reverse (reverse [[1], [0]])).getD 0 []).count 1
        = (([[1], [0]] : List (List Nat)).getD 0 []).count 1 :=
  ⟨by decide, by decide, (claim_C6 [[1], [0]] (by decide)).2 0 (by decide) 1⟩

/-- Claim C9: `find_path` terminates on every valid-target graph — the fuel
`g.length + 1` supplied by the embedding is never exhausted, because the
no-revisit guard bounds the recursion by the vertex count (`dls` is
structurally recursive on its depth argument, so its termination is
definitional); on the 3-cycle the concrete path is found. -/
theorem claim_C9 :
    (∀ g : List (List Nat), Valid g → ∀ s e, find_path g s e ≠ FPR.fuelOut)
    ∧ find_path [[1], [2], [0]] 0 2 = FPR.path [0, 1, 2] :=
  ⟨fun g hval s e => find_path_ne_fuelOut g hval s e, by decide⟩

/-- Claim C9 witness: the fuel bound applied to the concrete cyclic graph. -/
theorem claim_C9_witness :
    Valid [[1], [2], [0]] ∧ find_path [[1], [2], [0]] 0 2 ≠ FPR.fuelOut :=
  ⟨by decide, claim_C9.1 [[1], [2], [0]] (by decide) 0 2⟩

/-- Claim C2: on valid-target graphs with valid sources and sinks,
`find_connected_limited` contains a sink iff some source reaches it by a
duplicate-free forward path of at most `max_depth` edges; and the two
concrete examples from the spec hold. -/
theorem claim_C2 :
    (∀ (g : List (List Nat)) (sources sinks : List Nat) (maxDepth : Nat),
      Valid g → (∀ s ∈ sources, s < g.length) →
      ∀ t ∈ sinks, t < g.length →
        (t ∈ find_connected_limited g sources sinks maxDepth ↔
          ∃ s ∈ sources, HasPathLe g maxDepth s t))
    ∧ find_connected_limited [[1], [2], [3], []] [0] [3] 1 = []
    ∧ find_connected_limited [[1], [2], [3], []] [0] [3] 3 = [3] := by
  refine ⟨?_, by decide, by decide⟩
  intro g sources sinks maxDepth _ hs t ht htlen
  rw [mem_find_connected_limited g sources sinks maxDepth t htlen hs]
  constructor
  · rintro ⟨_, d, hd, s, hsrc, hwalk⟩
    exact ⟨s, hsrc, (hasPathLe_iff_exists_walk g maxDepth s t).mpr ⟨d, hd, hwalk⟩⟩
  · rintro ⟨s, hsrc, hpath⟩
    rcases (hasPathLe_iff_exists_walk g maxDepth s t).mp hpath with ⟨d, hd, hwalk⟩
    exact ⟨ht, d, hd, s, hsrc, hwalk⟩

/-- Claim C2 witness: the equivalence applied to the spec's example graph. -/
theorem claim_C2_witness :
    Valid [[1], [2], [3], []] ∧ (∀ s ∈ [0], s < 4) ∧ (3 ∈ [3]) ∧ (3 < 4) ∧
      (3 ∈ find_connected_limited [[1], [2], [3], []] [0] [3] 3 ↔
        ∃ s ∈ [0], HasPathLe [[1], [2], [3], []] 3 s 3) :=
  ⟨by decide, by decide, by decide, by decide,
    claim_C2.1 [[1], [2], [3], []] [0] [3] 3 (by decide) (by decide) 3
      (by decide) (by decide)⟩

/-- Claim C7: with all four selectors enabled, `from_matrix` raises the
dimension-mismatch `ValueError` whenever BA's shape differs from
`(num_b, num_a)`, or AA's row count differs from `num_a`, or BB's leading
dimension differs from `num_b`, where `(num_a, num_b) = AB.shape`. -/
theorem claim_C7 (AB BA AA BB : SpMat)
    (h : (BA.rows ≠ AB.cols ∨ BA.cols ≠ AB.rows)
      ∨ AA.rows ≠ AB.rows ∨ BB.rows ≠ AB.cols) :
    ∃ msg, from_matrix AB BA AA BB [true, true, true, true]
      = Except.error msg := by
  by_cases h1 : AB.rows ≠ BA.cols ∨ BA.rows ≠ AB.cols
  · refine ⟨"Rows and Columns don't match", ?_⟩
    simp only [from_matrix, getD_list_zero, getD_list_one, getD_list_two,
      getD_list_three]
    rw [if_pos ⟨trivial, h1⟩]
  · have hn1 : ¬(True ∧ (AB.rows ≠ BA.cols ∨ BA.rows ≠ AB.cols)) :=
      fun hc => h1 hc.2
    by_cases h2 : AB.rows ≠ AA.rows
    · refine ⟨"Rows and Columns don't match", ?_⟩
      simp only [from_matrix, getD_list_zero, getD_list_one, getD_list_two,
        getD_list_three]
      rw [if_neg hn1, if_pos ⟨trivial, h2⟩]
    · have hn2 : ¬(True ∧ AB.rows ≠ AA.rows) := fun hc => h2 hc.2
      have h3 : BB.rows ≠ AB.cols := by
        push_neg at h1 h2
        rcases h with (hba | hba) | haa | hbb
        · exact absurd h1.2 hba
        · exact absurd h1.1.symm hba
        · exact absurd h2.symm haa
        · exact hbb
      refine ⟨"Rows and Columns don't match", ?_⟩
      simp only [from_matrix, getD_list_zero, getD_list_one, getD_list_two,
        getD_list_three]
      rw [if_neg hn1, if_neg hn2, if_pos ⟨trivial, h3⟩]

/-- Claim C7 witness: a concrete BA shape mismatch is rejected. -/
theorem claim_C7_witness :
    (((⟨2, 1, []⟩ : SpMat).rows ≠ (⟨1, 1, []⟩ : SpMat).cols
        ∨ (⟨2, 1, []⟩ : SpMat).cols ≠ (⟨1, 1, []⟩ : SpMat).rows)
      ∨ (⟨1, 1, []⟩ : SpMat).rows ≠ (⟨1, 1, []⟩ : SpMat).rows
      ∨ (⟨1, 1, []⟩ : SpMat).rows ≠ (⟨1, 1, []⟩ : SpMat).cols) ∧
    ∃ msg, from_matrix ⟨1, 1, []⟩ ⟨2, 1, []⟩ ⟨1, 1, []⟩ ⟨1, 1, []⟩
      [true, true, true, true] = Except.error msg :=
  ⟨by decide, claim_C7 ⟨1, 1, []⟩ ⟨2, 1, []⟩ ⟨1, 1, []⟩ ⟨1, 1, []⟩ (by decide)⟩

/-- Claim C10: `from_matrix` checks a quadrant's dimensions only when that
quadrant's selector is enabled: with the selector off, the quadrant matrix is
ignored entirely — the result does not depend on it at all, so an
inconsistent shape raises nothing. -/
theorem claim_C10 :
    (∀ (AB BA BAX AA BB : SpMat) (s0 s2 s3 : Bool),
      from_matrix AB BAX AA BB [s0, false, s2, s3]
        = from_matrix AB BA AA BB [s0, false, s2, s3])
    ∧ (∀ (AB BA AA AAX BB : SpMat) (s0 s1 s3 : Bool),
      from_matrix AB BA AAX BB [s0, s1, false, s3]
        = from_matrix AB BA AA BB [s0, s1, false, s3])
    ∧ (∀ (AB BA AA BB BBX : SpMat) (s0 s1 s2 : Bool),
      from_matrix AB BA AA BBX [s0, s1, s2, false]
        = from_matrix AB BA AA BB [s0, s1, s2, false]) := by
  refine ⟨?_, ?_, ?_⟩ <;> intro AB BA X AA BB s0 s2 s3 <;>
    simp [from_matrix, getD_list_zero, getD_list_one, getD_list_two,
      getD_list_three]

/-- Claim C1: with consistent shapes and all selectors enabled, the graph
built by `from_matrix` converts back via `to_matrix` to quadrants whose sets
of nonzero positions equal those of the four originals (occupancy, not
multiplicity). -/
theorem claim_C1 (AB BA AA BB : SpMat)
    (hABwf : AB.wf) (hBAwf : BA.wf) (hAAwf : AA.wf) (hBBwf : BB.wf)
    (hBAr : BA.rows = AB.cols) (hBAc : BA.cols = AB.rows)
    (hAAr : AA.rows = AB.rows) (hAAc : AA.cols = AB.rows)
    (hBBr : BB.rows = AB.cols) (hBBc : BB.cols = AB.cols) :
    ∃ G, from_matrix AB BA AA BB [true, true, true, true] = Except.ok G ∧
      (∀ r c, ((r, c) ∈ (to_matrix G AB.rows AB.cols).1.data ↔ (r, c) ∈ AB.data))
      ∧ (∀ r c, ((r, c) ∈ (to_matrix G AB.rows AB.cols).2.1.data ↔ (r, c) ∈ BA.data))
      ∧ (∀ r c, ((r, c) ∈ (to_matrix G AB.rows AB.cols).2.2.1.data ↔ (r, c) ∈ AA.data))
      ∧ (∀ r c, ((r, c) ∈ (to_matrix G AB.rows AB.cols).2.2.2.data ↔ (r, c) ∈ BB.data)) := by
  refine ⟨fmGraph AB BA AA BB true true true true,
    from_matrix_eq_ok AB BA AA BB true true true true
      (fun _ => ⟨hBAc, hBAr⟩) (fun _ => hAAr) (fun _ => hBBr), ?_, ?_, ?_, ?_⟩
  · intro r c
    rw [mem_to_matrix_ab]
    constructor
    · rintro ⟨hr, hmem⟩
      rw [mem_fmGraph AB BA AA BB true true true true r (AB.rows + c)
        (by omega)] at hmem
      rcases hmem with ⟨_, hm⟩ | ⟨_, hm⟩ | ⟨_, hm⟩ | ⟨_, hm⟩
      · rcases List.mem_map.mp hm with ⟨⟨a, b⟩, hab, heq⟩
        rw [Prod.mk.injEq] at heq
        have hb : b = c := by omega
        rw [← heq.1, ← hb]
        exact hab
      · rcases List.mem_map.mp hm with ⟨⟨a, b⟩, _, heq⟩
        rw [Prod.mk.injEq] at heq
        omega
      · rcases List.mem_map.mp hm with ⟨⟨a, b⟩, hab, heq⟩
        rw [Prod.mk.injEq] at heq
        have := (hAAwf (a, b) hab).2
        rw [hAAc] at this
        omega
      · rcases List.mem_map.mp hm with ⟨⟨a, b⟩, _, heq⟩
        rw [Prod.mk.injEq] at heq
        omega
    · intro hmem
      have hr : r < AB.rows := (hABwf (r, c) hmem).1
      refine ⟨hr, ?_⟩
      rw [mem_fmGraph AB BA AA BB true true true true r (AB.rows + c)
        (by omega)]
      exact Or.inl ⟨rfl, List.mem_map.mpr ⟨(r, c), hmem, rfl⟩⟩
  · intro r c
    rw [mem_to_matrix_ba]
    constructor
    · rintro ⟨hc, hmem⟩
      have hu : AB.rows + r < AB.rows + AB.cols := by
        have := mem_getD_lt _ _ _ hmem
        rw [fmGraph_length] at this
        exact this
      rw [mem_fmGraph AB BA AA BB true true true true (AB.rows + r) c hu] at hmem
      rcases hmem with ⟨_, hm⟩ | ⟨_, hm⟩ | ⟨_, hm⟩ | ⟨_, hm⟩
      · rcases List.mem_map.mp hm with ⟨⟨a, b⟩, hab, heq⟩
        rw [Prod.mk.injEq] at heq
        have := (hABwf (a, b) hab).1
        omega
      · rcases List.mem_map.mp hm with ⟨⟨a, b⟩, hab, heq⟩
        rw [Prod.mk.injEq] at heq
        have ha : a = r := by omega
        rw [← ha, ← heq.2]
        exact hab
      · rcases List.mem_map.mp hm with ⟨⟨a, b⟩, hab, heq⟩
        rw [Prod.mk.injEq] at heq
        have := (hAAwf (a, b) hab).1
        rw [hAAr] at this
        omega
      · rcases List.mem_map.mp hm with ⟨⟨a, b⟩, _, heq⟩
        rw [Prod.mk.injEq] at heq
        omega
    · intro hmem
      have hr : r < BA.rows := (hBAwf (r, c) hmem).1
      have hc : c < BA.cols := (hBAwf (r, c) hmem).2
      rw [hBAc] at hc
      refine ⟨hc, ?_⟩
      rw [mem_fmGraph AB BA AA BB true true true true (AB.rows + r) c
        (by rw [hBAr] at hr; omega)]
      exact Or.inr (Or.inl ⟨rfl, List.mem_map.mpr ⟨(r, c), hmem, rfl⟩⟩)
  · intro r c
    rw [mem_to_matrix_aa]
    constructor
    · rintro ⟨hr, hc, hmem⟩
      rw [mem_fmGraph AB BA AA BB true true true true r c (by omega)] at hmem
      rcases hmem with ⟨_, hm⟩ | ⟨_, hm⟩ | ⟨_, hm⟩ | ⟨_, hm⟩
      · rcases List.mem_map.mp hm with ⟨⟨a, b⟩, _, heq⟩
        rw [Prod.mk.injEq] at heq
        omega
      · rcases List.mem_map.mp hm with ⟨⟨a, b⟩, _, heq⟩
        rw [Prod.mk.injEq] at heq
        omega
      · rcases List.mem_map.mp hm with ⟨⟨a, b⟩, hab, heq⟩
        rw [Prod.mk.injEq] at heq
        rw [← heq.1, ← heq.2]
        exact hab
      · rcases List.mem_map.mp hm with ⟨⟨a, b⟩, _, heq⟩
        rw [Prod.mk.injEq] at heq
        omega
    · intro hmem
      have hr : r < AA.rows := (hAAwf (r, c) hmem).1
      have hc : c < AA.cols := (hAAwf (r, c) hmem).2
      rw [hAAr] at hr
      rw [hAAc] at hc
      refine ⟨hr, hc, ?_⟩
      rw [mem_fmGraph AB BA AA BB true true true true r c (by omega)]
      exact Or.inr (Or.inr (Or.inl ⟨rfl, List.mem_map.mpr ⟨(r, c), hmem, rfl⟩⟩))
  · intro r c
    rw [mem_to_matrix_bb]
    constructor
    · intro hmem
      have hu : AB.rows + r < AB.rows + AB.cols := by
        have := mem_getD_lt _ _ _ hmem
        rw [fmGraph_length] at this
        exact this
      rw [mem_fmGraph AB BA AA BB true true true true (AB.rows + r)
        (AB.rows + c) hu] at hmem
      rcases hmem with ⟨_, hm⟩ | ⟨_, hm⟩ | ⟨_, hm⟩ | ⟨_, hm⟩
      · rcases List.mem_map.mp hm with ⟨⟨a, b⟩, hab, heq⟩
        rw [Prod.mk.injEq] at heq
        have := (hABwf (a, b) hab).1
        omega
      · rcases List.mem_map.mp hm with ⟨⟨a, b⟩, hab, heq⟩
        rw [Prod.mk.injEq] at heq
        have := (hBAwf (a, b) hab).2
        rw [hBAc] at this
        omega
      · rcases List.mem_map.mp hm with ⟨⟨a, b⟩, hab, heq⟩
        rw [Prod.mk.injEq] at heq
        have := (hAAwf (a, b) hab).1
        rw [hAAr] at this
        omega
      · rcases List.mem_map.mp hm with ⟨⟨a, b⟩, hab, heq⟩
        rw [Prod.mk.injEq] at heq
        have ha : a = r := by omega
        have hb : b = c := by omega
        rw [← ha, ← hb]
        exact hab
    · intro hmem
      have hr : r < BB.rows := (hBBwf (r, c) hmem).1
      rw [hBBr] at hr
      rw [mem_fmGraph AB BA AA BB true true true true (AB.rows + r)
        (AB.rows + c) (by omega)]
      exact Or.inr (Or.inr (Or.inr ⟨rfl, List.mem_map.mpr ⟨(r, c), hmem, rfl⟩⟩))

/-- Claim C1 witness: the round trip on concrete 1x1 blocks. -/
theorem claim_C1_witness :
    SpMat.wf ⟨1, 1, [(0, 0)]⟩ ∧
    (∃ G, from_matrix ⟨1, 1, [(0, 0)]⟩ ⟨1, 1, [(0, 0)]⟩ ⟨1, 1, [(0, 0)]⟩
        ⟨1, 1, [(0, 0)]⟩ [true, true, true, true] = Except.ok G ∧
      (∀ r c, ((r, c) ∈ (to_matrix G 1 1).1.data ↔ (r, c) ∈ [(0, 0)]))
      ∧ (∀ r c, ((r, c) ∈ (to_matrix G 1 1).2.1.data ↔ (r, c) ∈ [(0, 0)]))
      ∧ (∀ r c, ((r, c) ∈ (to_matrix G 1 1).2.2.1.data ↔ (r, c) ∈ [(0, 0)]))
      ∧ (∀ r c, ((r, c) ∈ (to_matrix G 1 1).2.2.2.data ↔ (r, c) ∈ [(0, 0)]))) :=
  ⟨by decide,
    claim_C1 ⟨1, 1, [(0, 0)]⟩ ⟨1, 1, [(0, 0)]⟩ ⟨1, 1, [(0, 0)]⟩ ⟨1, 1, [(0, 0)]⟩
      (by decide) (by decide) (by decide) (by decide) rfl rfl rfl rfl rfl rfl⟩

/-- Claim C8: with `use_AB` disabled and consistently shaped blocks, the
resulting graph has no edge out of an A-vertex into the B range (every
A-row target comes from AA and stays below `num_a`), and the result does
not depend on AB's entries at all — only on its shape. -/
theorem claim_C8 (AB BA AA BB : SpMat) (s1 s2 s3 : Bool)
    (hAAwf : AA.wf) (hAAc : AA.cols = AB.rows) :
    (∀ G, from_matrix AB BA AA BB [false, s1, s2, s3] = Except.ok G →
      ∀ u, u < AB.rows → ∀ v ∈ G.getD u [], v < AB.rows)
    ∧ (∀ ABX : SpMat, ABX.rows = AB.rows → ABX.cols = AB.cols →
        from_matrix ABX BA AA BB [false, s1, s2, s3]
          = from_matrix AB BA AA BB [false, s1, s2, s3]) := by
  constructor
  · intro G hG u hu v hv
    rw [from_matrix_ok_inv AB BA AA BB false s1 s2 s3 G hG] at hv
    rw [mem_fmGraph AB BA AA BB false s1 s2 s3 u v (by omega)] at hv
    rcases hv with ⟨hfalse, _⟩ | ⟨_, hm⟩ | ⟨_, hm⟩ | ⟨_, hm⟩
    · cases hfalse
    · rcases List.mem_map.mp hm with ⟨⟨a, b⟩, _, heq⟩
      rw [Prod.mk.injEq] at heq
      omega
    · rcases List.mem_map.mp hm with ⟨⟨a, b⟩, hab, heq⟩
      rw [Prod.mk.injEq] at heq
      have := (hAAwf (a, b) hab).2
      rw [hAAc] at this
      omega
    · rcases List.mem_map.mp hm with ⟨⟨a, b⟩, _, heq⟩
      rw [Prod.mk.injEq] at heq
      omega
  · intro ABX hr hc
    simp [from_matrix, getD_list_zero, getD_list_one, getD_list_two,
      getD_list_three, hr, hc]

/-- Claim C8 witness: the no-A-to-B-edge property on concrete blocks. -/
theorem claim_C8_witness :
    SpMat.wf ⟨1, 1, [(0, 0)]⟩ ∧
    (∀ G, from_matrix ⟨1, 1, [(0, 0)]⟩ ⟨1, 1, [(0, 0)]⟩ ⟨1, 1, [(0, 0)]⟩
        ⟨1, 1, [(0, 0)]⟩ [false, true, true, true] = Except.ok G →
      ∀ u, u < 1 → ∀ v ∈ G.getD u [], v < 1) :=
  ⟨by decide,
    (claim_C8 ⟨1, 1, [(0, 0)]⟩ ⟨1, 1, [(0, 0)]⟩ ⟨1, 1, [(0, 0)]⟩ ⟨1, 1, [(0, 0)]⟩
      true true true (by decide) rfl).1⟩

end SimpleGraph0
